import Mathlib

set_option maxHeartbeats 1000000

/-!
Shallow embedding of the replay / circuit-analytics core of the repository:
the AdvancedCircuitAnalytics component (enhancedPositions, heatmapData) and
the CircuitTracker component (processedData, timestampGroups,
currentPositions, the replay interval effect and handlePlay).

Modelling conventions:
* Coordinates, speeds and intensities are exact rationals; the derived
  metrics engine, which takes a square root, is modelled over the reals.
* Timestamps are modelled by their epoch-millisecond value, i.e. the value
  of new Date(ts).getTime(); the ISO strings delivered by the database are
  canonical, so string equality coincides with value equality.
* A JavaScript division whose divisor can be zero (hence whose result can
  be NaN or infinite, never a finite number) is modelled as Option-valued:
  none stands for the non-finite result.
* JavaScript Math.round(x) is floor(x + 1/2) (halves round toward positive
  infinity); Math.sqrt(d) < c with c nonnegative is equivalent to d < c^2,
  and argmin over Math.sqrt of squared distances is argmin over the squared
  distances themselves, because sqrt is strictly monotone on nonnegatives.
  The track-path reconstructor is therefore modelled with squared
  distances and the squared threshold 500^2 = 250000.
-/

namespace F1

/-- A filtered driver position sample of CircuitTracker: driver number,
coordinates and the timestamp (epoch milliseconds). -/
structure Pos where
  driver : String
  x : ℚ
  y : ℚ
  t : ℤ
deriving DecidableEq

/-- Replay transport state of CircuitTracker: the current frame index and
whether the interval timer is running (isPlaying). The code has no
separate Idle status; with an empty timeline the interval is simply never
installed. -/
structure ReplayState where
  idx : ℕ
  playing : Bool
deriving DecidableEq

/-- One firing of the replay interval (lines 708-722 of the source). The
effect installs the interval only while isPlaying is true and the timeline
is nonempty, so otherwise a tick changes nothing. A firing at the last
frame stops the replay (setIsPlaying false) and keeps the index. -/
def tick (frameCount : ℕ) (s : ReplayState) : ReplayState :=
  if s.playing ∧ 0 < frameCount then
    if frameCount - 1 ≤ s.idx then { idx := s.idx, playing := false }
    else { idx := s.idx + 1, playing := true }
  else s

/-- handlePlay of CircuitTracker: setIsPlaying(!isPlaying), a toggle. -/
def handlePlay (s : ReplayState) : ReplayState :=
  { s with playing := !s.playing }

/-- timestampGroups of CircuitTracker: group samples by timestamp, sort the
groups ascending by timestamp. Grouping and ordering within a group follow
the source (samples pushed in input order); the JavaScript object keys are
deduplicated timestamps, and since the group list is subsequently sorted by
the timestamp value the insertion order of the keys is immaterial, so
List.dedup is a faithful key list. -/
def timestampGroups (l : List Pos) : List (ℤ × List Pos) :=
  List.insertionSort (fun a b => a.1 ≤ b.1)
    (((l.map Pos.t).dedup).map fun ts => (ts, l.filter fun p => decide (p.t = ts)))

instance : IsTotal (ℤ × List Pos) (fun a b => a.1 ≤ b.1) :=
  ⟨fun a b => le_total a.1 b.1⟩

instance : IsTrans (ℤ × List Pos) (fun a b => a.1 ≤ b.1) :=
  ⟨fun _ _ _ h1 h2 => le_trans h1 h2⟩

/-- The per-driver trail of processedData (lines 666-671): all of the
driver's positions of the whole session, mapped to coordinate pairs.
Note that it does not depend on the replay index. -/
def driverTrail (positions : List Pos) (d : String) : List (ℚ × ℚ) :=
  (positions.filter fun p => decide (p.driver = d)).map fun p => (p.x, p.y)

/-- recentTrail of the render loop (line 915):
trail.slice(Math.max(0, trail.length - trailLength)); truncated natural
subtraction is exactly the max with 0. -/
def recentTrail (trail : List (ℚ × ℚ)) (trailLength : ℕ) : List (ℚ × ℚ) :=
  trail.drop (trail.length - trailLength)

/-- One JavaScript object/Map assignment m[k] = v: replace the value of an
existing key in place, otherwise append the new key at the end. -/
def objSet (m : List (String × Pos)) (k : String) (v : Pos) : List (String × Pos) :=
  match m with
  | [] => [(k, v)]
  | (k0, v0) :: rest => if k0 = k then (k0, v) :: rest else (k0, v0) :: objSet rest k v

/-- Folding one frame's samples into the driver-keyed object. -/
def upsertFrame (m : List (String × Pos)) (ps : List Pos) : List (String × Pos) :=
  ps.foldl (fun acc p => objSet acc p.driver p) m

/-- currentPositions of CircuitTracker (lines 692-705): fold the frames
0 .. min(currentIndex, frameCount-1) into a driver-keyed object, later
frames overwriting earlier ones, and return the values. -/
def currentPositions (frames : List (ℤ × List Pos)) (currentIndex : ℕ) : List Pos :=
  if frames = [] then []
  else
    ((frames.take (min currentIndex (frames.length - 1) + 1)).foldl
        (fun m f => upsertFrame m f.2) []).map Prod.snd

/-- All samples of the frames 0 .. min(currentIndex, frameCount-1), in
frame order; the reference stream that currentPositions condenses. -/
def samplesUpTo (frames : List (ℤ × List Pos)) (currentIndex : ℕ) : List Pos :=
  (frames.take (min currentIndex (frames.length - 1) + 1)).flatMap Prod.snd

/-- Discretization of a raw point to the 50-unit grid (line 619-620):
Math.round(c / 50) * 50, with Math.round x = floor(x + 1/2). -/
def discretize (p : ℚ × ℚ) : ℚ × ℚ :=
  ((Int.floor (p.1 / 50 + 1 / 2) : ℚ) * 50, (Int.floor (p.2 / 50 + 1 / 2) : ℚ) * 50)

/-- The deduplicated candidate point set of the track reconstructor
(lines 615-624): a Map keyed by the discretized point, keeping the first
insertion position of each key. -/
def dedupTrackPoints (l : List (ℚ × ℚ)) : List (ℚ × ℚ) :=
  l.foldl (fun acc p => if discretize p ∈ acc then acc else acc ++ [discretize p]) []

/-- Squared euclidean distance; the source compares Math.sqrt of this
against other square roots and against 500, which is equivalent to
comparing the squares against each other and against 250000. -/
def dist2 (a b : ℚ × ℚ) : ℚ := (b.1 - a.1) ^ 2 + (b.2 - a.2) ^ 2

/-- The greedy nearest-neighbor loop (lines 635-655). Each iteration finds
the unvisited candidate nearest to the last placed point (first one wins on
ties, matching the strict < update of the source), removes it from the
remaining set, and appends it to the path only when its distance is below
the threshold (nearestDistance < 500). The loop runs exactly
remaining.length times, one removal per iteration, which the fuel mirrors.
The candidates are pairwise distinct (they come from dedupTrackPoints), so
erasing the first occurrence of the argmin is the splice of the source. -/
def greedyAux : ℕ → (ℚ × ℚ) → List (ℚ × ℚ) → List (ℚ × ℚ)
  | 0, _, _ => []
  | fuel + 1, lastPoint, remaining =>
    match remaining.argmin (dist2 lastPoint) with
    | none => []
    | some p =>
      if dist2 lastPoint p < 250000 then p :: greedyAux fuel p (remaining.erase p)
      else greedyAux fuel lastPoint (remaining.erase p)

/-- orderedPoints of processedData (lines 632-655): start from the first
candidate, then run the greedy loop over the rest. -/
def orderedPoints (l : List (ℚ × ℚ)) : List (ℚ × ℚ) :=
  match dedupTrackPoints l with
  | [] => []
  | p :: rest => p :: greedyAux rest.length p rest

/-- Input record of the heatmap aggregator: an enhanced position restricted
to the fields the aggregator reads (driver number, coordinates, speed). -/
structure HeatSample where
  driver : String
  x : ℚ
  y : ℚ
  speed : ℚ
deriving DecidableEq

/-- A grid cell during accumulation: coordinates of the cell origin, sum of
speeds, sample count. -/
structure GridCell where
  x : ℚ
  y : ℚ
  intensity : ℚ
  count : ℕ
deriving DecidableEq

/-- An output heatmap cell; intensity is the normalized mean speed, and is
none when the JavaScript value would be NaN (division by a zero maximum). -/
structure HeatCell where
  x : ℚ
  y : ℚ
  intensity : Option ℚ
  count : ℕ
deriving DecidableEq

/-- Cell origin of a coordinate: Math.floor(v / gridSize) * gridSize with
gridSize = 200 (lines 95-101). -/
def snap (v : ℚ) : ℚ := (Int.floor (v / 200) : ℚ) * 200

/-- One accumulation step into the cell Map (lines 104-111): bump the
existing cell in place, or append a fresh cell that immediately receives
the sample (count 1, intensity = speed). -/
def updateCell (gx gy s : ℚ) : List GridCell → List GridCell
  | [] => [{ x := gx, y := gy, intensity := s, count := 1 }]
  | c :: rest =>
    if c.x = gx ∧ c.y = gy then
      { x := c.x, y := c.y, intensity := c.intensity + s, count := c.count + 1 } :: rest
    else c :: updateCell gx gy s rest

/-- The accumulated grid of heatmapData (lines 94-111): bin every sample of
a selected driver. -/
def heatmapCells (samples : List HeatSample) (sel : List String) : List GridCell :=
  (samples.filter fun p => decide (p.driver ∈ sel)).foldl
    (fun cells p => updateCell (snap p.x) (snap p.y) p.speed cells) []

/-- Mean speed of a cell: cell.intensity / cell.count (lines 114 and 118).
Every constructed cell has count at least 1, so this division is safe. -/
def cellMean (c : GridCell) : ℚ := c.intensity / (c.count : ℚ)

/-- Math.max over the cell means (line 114). For an empty grid JavaScript
yields -Infinity, but the subsequent map is then empty, so the value is
never consumed; 0 is an arbitrary stand-in for that dead case. -/
def maxMeanIntensity (cells : List GridCell) : ℚ :=
  match cells.map cellMean with
  | [] => 0
  | m :: ms => ms.foldl max m

/-- JavaScript division a / b as used on line 118: a finite number unless
the divisor is 0, in which case the result is NaN (or infinite) and is
modelled as none. -/
def divNaN (a b : ℚ) : Option ℚ := if b = 0 then none else some (a / b)

/-- heatmapData (lines 91-120): normalize every cell's mean speed by the
maximum mean. -/
def heatmapData (samples : List HeatSample) (sel : List String) : List HeatCell :=
  let cells := heatmapCells samples sel
  let m := maxMeanIntensity cells
  cells.map fun c => { x := c.x, y := c.y, intensity := divNaN (cellMean c) m, count := c.count }

/-- A raw position sample of one driver in AdvancedCircuitAnalytics,
already in ascending timestamp order (the source sorts each driver's
samples before the metrics pass); tms is the epoch-millisecond value. -/
structure RawSample where
  x : ℝ
  y : ℝ
  tms : ℝ

/-- An enhanced sample: the position plus the derived kinematic fields. -/
structure EnhancedSample where
  x : ℝ
  y : ℝ
  tms : ℝ
  distance : ℝ
  speed : ℝ
  acceleration : ℝ

/-- The body of the metrics loop (lines 55-83) for a sample at position
idx at least 1 of a driver's sorted sequence: timeDiff is in seconds; when
it is positive the distance, speed and (for idx at least 2) acceleration
are computed, otherwise all three stay 0. prevSpeed is the speed of the
previously emitted enhanced sample of this driver. -/
noncomputable def mkEnhanced (prev : RawSample) (prevSpeed : ℝ) (idx : ℕ) (p : RawSample) :
    EnhancedSample :=
  let timeDiff := (p.tms - prev.tms) / 1000
  let dist := Real.sqrt ((p.x - prev.x) ^ 2 + (p.y - prev.y) ^ 2)
  if 0 < timeDiff then
    { x := p.x, y := p.y, tms := p.tms, distance := dist, speed := dist / timeDiff,
      acceleration := if 1 < idx then (dist / timeDiff - prevSpeed) / timeDiff else 0 }
  else { x := p.x, y := p.y, tms := p.tms, distance := 0, speed := 0, acceleration := 0 }

/-- The metrics loop from position 1 on: each emitted sample feeds its
speed to the next iteration, exactly as the source reads the speed of the
last element pushed onto the enhanced array. -/
noncomputable def enhanceAux (prev : RawSample) (prevSpeed : ℝ) (idx : ℕ) :
    List RawSample → List EnhancedSample
  | [] => []
  | p :: rest =>
    mkEnhanced prev prevSpeed idx p ::
      enhanceAux p (mkEnhanced prev prevSpeed idx p).speed (idx + 1) rest

/-- enhancedPositions (lines 40-88) restricted to one driver's sorted
sample sequence: the first sample gets distance = speed = acceleration = 0
(index 0 skips the whole computation), the rest go through the loop body.
The per-driver sequences are independent in the source: the enhanced array
is read only at index enhanced.length - 1, which inside a driver's forEach
is always the previous sample of the same driver. -/
noncomputable def enhancedPositions : List RawSample → List EnhancedSample
  | [] => []
  | p :: rest =>
    { x := p.x, y := p.y, tms := p.tms, distance := 0, speed := 0, acceleration := 0 } ::
      enhanceAux p 0 1 rest

/-- Out-of-range placeholder for getD-indexing of raw samples in theorem
statements; never reached under the stated bounds. -/
def zeroRaw : RawSample := { x := 0, y := 0, tms := 0 }

/-- Out-of-range placeholder for getD-indexing of enhanced samples in
theorem statements; never reached under the stated bounds. -/
def zeroEnhanced : EnhancedSample :=
  { x := 0, y := 0, tms := 0, distance := 0, speed := 0, acceleration := 0 }

/-- The scenario input of the spec: one entity sampled at (0,0) at t = 0 s,
(3,4) at t = 1 s and (3,4) at t = 2 s, timestamps in epoch milliseconds. -/
def scenarioSamples : List RawSample :=
  [{ x := 0, y := 0, tms := 0 }, { x := 3, y := 4, tms := 1000 },
   { x := 3, y := 4, tms := 2000 }]

/-! Replay scheduler lemmas -/

theorem tick_zero_frames (s : ReplayState) : tick 0 s = s := by
  simp [tick]

theorem tick_paused (F i : ℕ) : tick F { idx := i, playing := false } = { idx := i, playing := false } := by
  simp [tick]

theorem iterate_tick_paused (F i : ℕ) : ∀ n : ℕ,
    (tick F)^[n] { idx := i, playing := false } = { idx := i, playing := false } := by
  intro n
  induction n with
  | zero => rfl
  | succ n ih => rw [Function.iterate_succ_apply', ih, tick_paused]

theorem iterate_tick_advance (F : ℕ) (hF : 0 < F) : ∀ j : ℕ, j ≤ F - 1 →
    (tick F)^[j] { idx := 0, playing := true } = { idx := j, playing := true } := by
  intro j
  induction j with
  | zero => intro _; rfl
  | succ j ih =>
    intro h
    rw [Function.iterate_succ_apply', ih (by omega)]
    simp [tick, hF, (show ¬ (F - 1 ≤ j) by omega)]

/-- Claim C8: starting Paused at index 0 with frameCount F > 0, a play
followed by N ticks with F ≤ N ends Paused at index F - 1: the tick that
would exceed the last index clamps there and stops the replay, and since
this holds for every larger N the index never wraps back to 0. -/
theorem c8_spec (F N : ℕ) (hF : 0 < F) (hN : F ≤ N) :
    (tick F)^[N] (handlePlay { idx := 0, playing := false }) =
      { idx := F - 1, playing := false } := by
  have hstart : handlePlay { idx := 0, playing := false } = { idx := 0, playing := true } := rfl
  have hdecomp : N = (N - F) + (1 + (F - 1)) := by omega
  rw [hstart, hdecomp, Function.iterate_add_apply, Function.iterate_add_apply,
    iterate_tick_advance F hF (F - 1) le_rfl]
  have hone : (tick F)^[1] ({ idx := F - 1, playing := true } : ReplayState) =
      { idx := F - 1, playing := false } := by
    rw [Function.iterate_succ_apply', Function.iterate_zero_apply]
    simp [tick, hF]
  rw [hone, iterate_tick_paused]

/-- Witness for C8 at F = 2, N = 3. -/
theorem c8_witness : 0 < 2 ∧ 2 ≤ 3 ∧
    (tick 2)^[3] (handlePlay { idx := 0, playing := false }) =
      { idx := 1, playing := false } :=
  ⟨by decide, by decide, c8_spec 2 3 (by decide) (by decide)⟩

/-- Counterexample to claim C9: the code has no Idle status and handlePlay
does not consult the frame count; invoking it with frameCount = 0 from the
initial state toggles isPlaying, so the observable status does change. -/
theorem c9_counterexample :
    handlePlay { idx := 0, playing := false } ≠ { idx := 0, playing := false } := by
  decide

/-- Amended claim C9: with frameCount = 0 no tick ever fires (the interval
is installed only while playing with a nonempty timeline), but play() is a
toggle of the isPlaying flag rather than a no-op, and the code has no
dedicated Idle status. -/
theorem c9_amended :
    (∀ s : ReplayState, tick 0 s = s) ∧
    handlePlay { idx := 0, playing := false } = { idx := 0, playing := true } ∧
    handlePlay { idx := 0, playing := true } = { idx := 0, playing := false } :=
  ⟨tick_zero_frames, rfl, rfl⟩

/-! Trail windowing -/

/-- Counterexample to claim C2: one driver with samples at three distinct
timestamps, replay index 0, trail length 2. The rendered trail is the last
2 positions of the driver's full session trail, which includes the
coordinate pair of frame 2 even though the replay has only reached frame 0,
so the trail is not clipped to frames up to currentFrameIndex. -/
theorem c2_counterexample :
    ((6 : ℚ), (8 : ℚ)) ∈
      recentTrail
        (driverTrail
          [{ driver := "1", x := 1, y := 1, t := 0 },
           { driver := "1", x := 3, y := 4, t := 1000 },
           { driver := "1", x := 6, y := 8, t := 2000 }] "1") 2 ∧
    ((6 : ℚ), (8 : ℚ)) ∉
      (samplesUpTo
          (timestampGroups
            [{ driver := "1", x := 1, y := 1, t := 0 },
             { driver := "1", x := 3, y := 4, t := 1000 },
             { driver := "1", x := 6, y := 8, t := 2000 }]) 0).map
        (fun p => (p.x, p.y)) := by
  decide

/-- Amended claim C2: the rendered trail is the suffix of the entity's full
session trail of length min K (trail length); it does not depend on the
replay's current frame index at all, so it is not clipped to the frames
already reached. -/
theorem c2_amended : ∀ (positions : List Pos) (d : String) (K : ℕ),
    recentTrail (driverTrail positions d) K <:+ driverTrail positions d ∧
    (recentTrail (driverTrail positions d) K).length =
      min K (driverTrail positions d).length := by
  intro positions d K
  refine ⟨List.drop_suffix _ _, ?_⟩
  rw [recentTrail, List.length_drop]
  omega

/-! Timeline indexer -/

/-- Claim C7: the number of frames equals the number of distinct timestamps
of the input, and the frame timestamps are strictly ascending (hence no
duplicates). -/
theorem c7_spec : ∀ l : List Pos,
    (timestampGroups l).length = (l.map Pos.t).toFinset.card ∧
    ((timestampGroups l).map Prod.fst).Sorted (· < ·) := by
  intro l
  have hperm : (timestampGroups l).Perm
      (((l.map Pos.t).dedup).map fun ts => (ts, l.filter fun p => decide (p.t = ts))) :=
    List.perm_insertionSort _ _
  constructor
  · rw [List.card_toFinset, hperm.length_eq, List.length_map]
  · have hsorted : List.Sorted (fun a b : ℤ × List Pos => a.1 ≤ b.1) (timestampGroups l) :=
      List.sorted_insertionSort _ _
    have hfst : (((l.map Pos.t).dedup).map
        fun ts => (ts, l.filter fun p => decide (p.t = ts))).map Prod.fst =
        (l.map Pos.t).dedup := by
      rw [List.map_map]
      exact List.map_id _
    have hmapperm : ((timestampGroups l).map Prod.fst).Perm ((l.map Pos.t).dedup) := by
      rw [← hfst]
      exact hperm.map _
    have hnodup : ((timestampGroups l).map Prod.fst).Nodup :=
      (hmapperm.nodup_iff).mpr (List.nodup_dedup _)
    have hne : List.Pairwise (fun a b : ℤ × List Pos => a.1 ≠ b.1) (timestampGroups l) :=
      List.pairwise_map.mp hnodup
    exact List.pairwise_map.mpr ((hsorted.and hne).imp fun h => lt_of_le_of_ne h.1 h.2)

/-! Track path reconstructor -/

theorem dedupTrackPoints_nodup (l : List (ℚ × ℚ)) : (dedupTrackPoints l).Nodup := by
  suffices h : ∀ (l acc : List (ℚ × ℚ)), acc.Nodup →
      (l.foldl (fun acc p => if discretize p ∈ acc then acc else acc ++ [discretize p])
        acc).Nodup by
    exact h l [] List.nodup_nil
  intro l
  induction l with
  | nil => intro acc h; exact h
  | cons p rest ih =>
    intro acc h
    rw [List.foldl_cons]
    by_cases hm : discretize p ∈ acc
    · rw [if_pos hm]
      exact ih acc h
    · rw [if_neg hm]
      refine ih _ ?_
      rw [List.nodup_append]
      exact ⟨h, List.nodup_singleton _, List.disjoint_singleton.mpr hm⟩

theorem greedyAux_subset : ∀ (fuel : ℕ) (lastPoint : ℚ × ℚ) (rem : List (ℚ × ℚ)),
    ∀ x ∈ greedyAux fuel lastPoint rem, x ∈ rem := by
  intro fuel
  induction fuel with
  | zero =>
    intro lastPoint rem x hx
    simp [greedyAux] at hx
  | succ fuel ih =>
    intro lastPoint rem x hx
    rw [greedyAux] at hx
    split at hx
    · simp at hx
    · next p harg =>
      have hp : p ∈ rem := List.argmin_mem harg
      split at hx
      · rcases List.mem_cons.mp hx with rfl | hx2
        · exact hp
        · exact List.mem_of_mem_erase (ih _ _ x hx2)
      · exact List.mem_of_mem_erase (ih _ _ x hx)

theorem greedyAux_nodup : ∀ (fuel : ℕ) (lastPoint : ℚ × ℚ) (rem : List (ℚ × ℚ)),
    rem.Nodup → (greedyAux fuel lastPoint rem).Nodup := by
  intro fuel
  induction fuel with
  | zero =>
    intro _ _ _
    simp [greedyAux]
  | succ fuel ih =>
    intro lastPoint rem hnd
    rw [greedyAux]
    split
    · exact List.nodup_nil
    · next p harg =>
      split
      · refine List.nodup_cons.mpr ⟨?_, ih _ _ (hnd.erase p)⟩
        intro hmem
        exact hnd.not_mem_erase (greedyAux_subset fuel p (rem.erase p) p hmem)
      · exact ih _ _ (hnd.erase p)

theorem greedyAux_chain : ∀ (fuel : ℕ) (lastPoint : ℚ × ℚ) (rem : List (ℚ × ℚ)),
    List.Chain (fun a b => dist2 a b < 250000) lastPoint (greedyAux fuel lastPoint rem) := by
  intro fuel
  induction fuel with
  | zero =>
    intro _ _
    exact List.Chain.nil
  | succ fuel ih =>
    intro lastPoint rem
    rw [greedyAux]
    split
    · exact List.Chain.nil
    · next p harg =>
      split
      · next hd => exact List.Chain.cons hd (ih p (rem.erase p))
      · exact ih lastPoint (rem.erase p)

/-- Counterexample to claim C1: the candidate cloud with the two
(already grid-aligned) points (50, 50) and (1000, 50) deduplicates to both
points, but the greedy loop discards the second one because its distance
950 exceeds the 500 threshold (squared: 902500 is not below 250000), so
the output path does not contain every deduplicated candidate point. -/
theorem c1_counterexample :
    dedupTrackPoints [(50, 50), (1000, 50)] = [(50, 50), (1000, 50)] ∧
    orderedPoints [(50, 50), (1000, 50)] = [(50, 50)] := by
  have h1 : discretize ((50 : ℚ), (50 : ℚ)) = (50, 50) := by
    norm_num [discretize]
  have h2 : discretize ((1000 : ℚ), (50 : ℚ)) = (1000, 50) := by
    norm_num [discretize]
  have hd : dedupTrackPoints [(50, 50), (1000, 50)] = [(50, 50), (1000, 50)] := by
    norm_num [dedupTrackPoints, h1, h2]
  refine ⟨hd, ?_⟩
  rw [orderedPoints, hd]
  show (50, 50) :: greedyAux 1 (50, 50) [(1000, 50)] = [(50, 50)]
  rw [greedyAux]
  norm_num [List.argmin, List.argAux, dist2, greedyAux]

/-- Amended claim C1: at every step the nearest unvisited candidate is
removed from the candidate set, but it is appended to the path only when
its distance to the last placed point is below the threshold (500, i.e.
squared distance below 250000); farther candidates are silently discarded.
Consequently the output path is a duplicate-free selection of the
deduplicated candidate points whose consecutive points are always within
the threshold, and it need not contain every candidate. -/
theorem c1_amended : ∀ l : List (ℚ × ℚ),
    (orderedPoints l).Nodup ∧ (∀ x ∈ orderedPoints l, x ∈ dedupTrackPoints l) ∧
    List.Chain' (fun a b => dist2 a b < 250000) (orderedPoints l) := by
  intro l
  have hnd : (dedupTrackPoints l).Nodup := dedupTrackPoints_nodup l
  rw [orderedPoints]
  split
  · exact ⟨List.nodup_nil, by simp, trivial⟩
  · next p rest heq =>
    rw [heq] at hnd
    have hnotin : p ∉ rest := (List.nodup_cons.mp hnd).1
    have hrest : rest.Nodup := (List.nodup_cons.mp hnd).2
    refine ⟨?_, ?_, ?_⟩
    · exact List.nodup_cons.mpr
        ⟨fun hm => hnotin (greedyAux_subset _ _ _ p hm), greedyAux_nodup _ _ _ hrest⟩
    · intro x hx
      rw [heq]
      rcases List.mem_cons.mp hx with rfl | hx2
      · exact List.mem_cons_self _ _
      · exact List.mem_cons_of_mem _ (greedyAux_subset _ _ _ x hx2)
    · exact greedyAux_chain rest.length p rest

/-! Heatmap aggregator -/

theorem updateCell_inv (P : GridCell → Prop) (gx gy s : ℚ)
    (hnew : P { x := gx, y := gy, intensity := s, count := 1 })
    (hbump : ∀ c : GridCell, P c →
      P { x := c.x, y := c.y, intensity := c.intensity + s, count := c.count + 1 }) :
    ∀ cells : List GridCell, (∀ c ∈ cells, P c) → ∀ c ∈ updateCell gx gy s cells, P c := by
  intro cells
  induction cells with
  | nil =>
    intro _ c hc
    simp only [updateCell, List.mem_singleton] at hc
    subst hc
    exact hnew
  | cons c0 rest ih =>
    intro h c hc
    rw [updateCell] at hc
    split at hc
    · rcases List.mem_cons.mp hc with rfl | hmem
      · exact hbump c0 (h c0 (List.mem_cons_self _ _))
      · exact h c (List.mem_cons_of_mem _ hmem)
    · rcases List.mem_cons.mp hc with rfl | hmem
      · exact h c (List.mem_cons_self _ _)
      · exact ih (fun d hd => h d (List.mem_cons_of_mem _ hd)) c hmem

theorem foldl_updateCell_inv (P : GridCell → Prop) :
    ∀ (ss : List HeatSample) (init : List GridCell),
    (∀ p ∈ ss, P { x := snap p.x, y := snap p.y, intensity := p.speed, count := 1 }) →
    (∀ p ∈ ss, ∀ c : GridCell, P c →
      P { x := c.x, y := c.y, intensity := c.intensity + p.speed, count := c.count + 1 }) →
    (∀ c ∈ init, P c) →
    ∀ c ∈ ss.foldl (fun cells p => updateCell (snap p.x) (snap p.y) p.speed cells) init,
      P c := by
  intro ss
  induction ss with
  | nil =>
    intro init _ _ h
    exact h
  | cons p rest ih =>
    intro init hnew hbump h
    rw [List.foldl_cons]
    exact ih _ (fun q hq => hnew q (List.mem_cons_of_mem _ hq))
      (fun q hq => hbump q (List.mem_cons_of_mem _ hq))
      (updateCell_inv P _ _ _ (hnew p (List.mem_cons_self _ _))
        (hbump p (List.mem_cons_self _ _)) init h)

theorem heatmapCells_inv (P : GridCell → Prop) (samples : List HeatSample) (sel : List String)
    (hnew : ∀ p ∈ samples, P { x := snap p.x, y := snap p.y, intensity := p.speed, count := 1 })
    (hbump : ∀ p ∈ samples, ∀ c : GridCell, P c →
      P { x := c.x, y := c.y, intensity := c.intensity + p.speed, count := c.count + 1 }) :
    ∀ c ∈ heatmapCells samples sel, P c := by
  rw [heatmapCells]
  exact foldl_updateCell_inv P _ []
    (fun p hp => hnew p (List.mem_of_mem_filter hp))
    (fun p hp => hbump p (List.mem_of_mem_filter hp))
    (by simp)

theorem heatmapCells_count (samples : List HeatSample) (sel : List String) :
    ∀ c ∈ heatmapCells samples sel, 1 ≤ c.count :=
  heatmapCells_inv _ samples sel (fun _ _ => le_rfl)
    (fun _ _ c _ => Nat.succ_le_succ (Nat.zero_le c.count))

theorem heatmapCells_intensity_nonneg (samples : List HeatSample) (sel : List String)
    (hpos : ∀ p ∈ samples, 0 ≤ p.speed) :
    ∀ c ∈ heatmapCells samples sel, 0 ≤ c.intensity :=
  heatmapCells_inv _ samples sel (fun p hp => hpos p hp)
    (fun p hp _ hc => add_nonneg hc (hpos p hp))

theorem heatmapCells_intensity_zero (samples : List HeatSample) (sel : List String)
    (hz : ∀ p ∈ samples, p.speed = 0) :
    ∀ c ∈ heatmapCells samples sel, c.intensity = 0 :=
  heatmapCells_inv _ samples sel (fun p hp => hz p hp)
    (fun p hp c hc => by simp [hc, hz p hp])

theorem foldl_max_le (l : List ℚ) : ∀ a : ℚ,
    a ≤ l.foldl max a ∧ ∀ x ∈ l, x ≤ l.foldl max a := by
  induction l with
  | nil =>
    intro a
    exact ⟨le_rfl, by simp⟩
  | cons b t ih =>
    intro a
    rw [List.foldl_cons]
    obtain ⟨h1, h2⟩ := ih (max a b)
    refine ⟨le_trans (le_max_left a b) h1, ?_⟩
    intro x hx
    rcases List.mem_cons.mp hx with rfl | hx2
    · exact le_trans (le_max_right a x) h1
    · exact h2 x hx2

theorem foldl_max_mem (l : List ℚ) : ∀ a : ℚ, l.foldl max a = a ∨ l.foldl max a ∈ l := by
  induction l with
  | nil =>
    intro a
    exact Or.inl rfl
  | cons b t ih =>
    intro a
    rw [List.foldl_cons]
    rcases ih (max a b) with h | h
    · rcases max_choice a b with h2 | h2
      · exact Or.inl (h.trans h2)
      · exact Or.inr (by rw [h, h2]; exact List.mem_cons_self _ _)
    · exact Or.inr (List.mem_cons_of_mem _ h)

theorem foldl_max_of_le (l : List ℚ) : ∀ a : ℚ, (∀ x ∈ l, x ≤ a) → l.foldl max a = a := by
  induction l with
  | nil =>
    intro a _
    rfl
  | cons b t ih =>
    intro a h
    rw [List.foldl_cons, max_eq_left (h b (List.mem_cons_self _ _))]
    exact ih a fun x hx => h x (List.mem_cons_of_mem _ hx)

theorem maxMean_cons (c0 : GridCell) (rest : List GridCell) :
    maxMeanIntensity (c0 :: rest) = (rest.map cellMean).foldl max (cellMean c0) := by
  simp [maxMeanIntensity]

theorem maxMean_spec (cells : List GridCell) (hne : cells ≠ []) :
    (∀ c ∈ cells, cellMean c ≤ maxMeanIntensity cells) ∧
    ∃ c ∈ cells, cellMean c = maxMeanIntensity cells := by
  cases cells with
  | nil => exact absurd rfl hne
  | cons c0 rest =>
    rw [maxMean_cons]
    obtain ⟨h1, h2⟩ := foldl_max_le (rest.map cellMean) (cellMean c0)
    constructor
    · intro c hc
      rcases List.mem_cons.mp hc with rfl | hc2
      · exact h1
      · exact h2 _ (List.mem_map_of_mem _ hc2)
    · rcases foldl_max_mem (rest.map cellMean) (cellMean c0) with h | h
      · exact ⟨c0, List.mem_cons_self _ _, h.symm⟩
      · obtain ⟨c, hc, hceq⟩ := List.mem_map.mp h
        exact ⟨c, List.mem_cons_of_mem _ hc, hceq⟩

/-- Counterexample to claim C4: a single selected sample whose speed is 0
(the speed every first sample of an entity has). Its cell's summed
intensity is 0, so the maximum mean intensity is 0 and the unguarded
normalization divides 0 by 0: the cell's normalizedIntensity is NaN. -/
theorem c4_counterexample :
    heatmapData [{ driver := "1", x := 100, y := 100, speed := 0 }] ["1"] =
      [{ x := 0, y := 0, intensity := none, count := 1 }] := by
  norm_num [heatmapData, heatmapCells, List.filter, updateCell, snap, maxMeanIntensity,
    cellMean, divNaN]

/-- Amended claim C4: the divisions by deltaT and by a cell's sample count
are safe (deltaT is used only under a positivity guard, and every cell has
count at least 1), but the division by the maximum mean intensity is not
guarded: whenever every accumulated sample has speed 0 - for example a
session with a single sample per entity - every cell's normalizedIntensity
is NaN. -/
theorem c4_amended : ∀ (samples : List HeatSample) (sel : List String),
    (∀ c ∈ heatmapCells samples sel, 1 ≤ c.count) ∧
    ((∀ p ∈ samples, p.speed = 0) →
      ∀ hc ∈ heatmapData samples sel, hc.intensity = none) := by
  intro samples sel
  constructor
  · exact heatmapCells_count samples sel
  · intro hz hc hmem
    have hzero : ∀ c ∈ heatmapCells samples sel, c.intensity = 0 :=
      heatmapCells_intensity_zero samples sel hz
    have hmax : maxMeanIntensity (heatmapCells samples sel) = 0 := by
      cases hcell : heatmapCells samples sel with
      | nil => simp [maxMeanIntensity]
      | cons c0 rest =>
        rw [maxMean_cons]
        have hm0 : cellMean c0 = 0 := by
          rw [cellMean, hzero c0 (hcell ▸ List.mem_cons_self _ _), zero_div]
        rw [hm0]
        refine foldl_max_of_le _ 0 ?_
        intro x hx
        obtain ⟨c, hcmem, rfl⟩ := List.mem_map.mp hx
        rw [cellMean, hzero c (hcell ▸ List.mem_cons_of_mem _ hcmem), zero_div]
    simp only [heatmapData] at hmem
    obtain ⟨c, hcmem, rfl⟩ := List.mem_map.mp hmem
    simp [divNaN, hmax]

/-- Witness for the amended claim C4 at a concrete single-sample input. -/
theorem c4_witness :
    (∀ p ∈ [({ driver := "1", x := 100, y := 100, speed := 0 } : HeatSample)], p.speed = 0) ∧
    (∀ hc ∈ heatmapData [{ driver := "1", x := 100, y := 100, speed := 0 }] ["1"],
      hc.intensity = none) ∧
    1 ≤ ({ x := 0, y := 0, intensity := 0, count := 1 } : GridCell).count := by
  have h : ∀ p ∈ [({ driver := "1", x := 100, y := 100, speed := 0 } : HeatSample)],
      p.speed = 0 := by
    intro p hp
    simp only [List.mem_singleton] at hp
    rw [hp]
  have hcells : heatmapCells [{ driver := "1", x := 100, y := 100, speed := 0 }] ["1"] =
      [{ x := 0, y := 0, intensity := 0, count := 1 }] := by
    norm_num [heatmapCells, List.filter, updateCell, snap]
  refine ⟨h, (c4_amended _ ["1"]).2 h, ?_⟩
  exact (c4_amended [{ driver := "1", x := 100, y := 100, speed := 0 }] ["1"]).1 _
    (by rw [hcells]; exact List.mem_singleton_self _)

/-- Counterexample to claim C3: two selected samples with equal speed 5 in
two different cells give two cells whose mean equals the maximum, so both
cells have normalizedIntensity exactly 1.0 although at least one cell has
nonzero intensity; "exactly one cell reaches 1.0" fails. -/
theorem c3_counterexample :
    heatmapData [{ driver := "1", x := 100, y := 100, speed := 5 },
        { driver := "1", x := 300, y := 100, speed := 5 }] ["1"] =
      [{ x := 0, y := 0, intensity := some 1, count := 1 },
       { x := 200, y := 0, intensity := some 1, count := 1 }] ∧
    ((heatmapData [{ driver := "1", x := 100, y := 100, speed := 5 },
        { driver := "1", x := 300, y := 100, speed := 5 }] ["1"]).countP
      fun hc => decide (hc.intensity = some 1)) = 2 := by
  have h : heatmapData [{ driver := "1", x := 100, y := 100, speed := 5 },
        { driver := "1", x := 300, y := 100, speed := 5 }] ["1"] =
      [{ x := 0, y := 0, intensity := some 1, count := 1 },
       { x := 200, y := 0, intensity := some 1, count := 1 }] := by
    norm_num [heatmapData, heatmapCells, List.filter, updateCell, snap, maxMeanIntensity,
      cellMean, divNaN]
  refine ⟨h, ?_⟩
  rw [h]
  rfl

/-- Amended claim C3: provided every sample speed is nonnegative (which
the metrics engine guarantees) and at least one cell has accumulated
nonzero intensity, every cell's normalizedIntensity is a finite value in
[0, 1] and at least one cell - possibly several, on ties - reaches exactly
1.0; when every cell's intensity is zero the normalization instead
produces NaN for every cell. -/
theorem c3_amended : ∀ (samples : List HeatSample) (sel : List String),
    (∀ p ∈ samples, 0 ≤ p.speed) →
    (∃ c ∈ heatmapCells samples sel, 0 < c.intensity) →
    (∀ hc ∈ heatmapData samples sel, ∃ q : ℚ, hc.intensity = some q ∧ 0 ≤ q ∧ q ≤ 1) ∧
    ∃ hc ∈ heatmapData samples sel, hc.intensity = some 1 := by
  intro samples sel hpos hex
  have hcount : ∀ c ∈ heatmapCells samples sel, 1 ≤ c.count := heatmapCells_count samples sel
  have hnonneg : ∀ c ∈ heatmapCells samples sel, 0 ≤ c.intensity :=
    heatmapCells_intensity_nonneg samples sel hpos
  obtain ⟨c0, hc0, hc0pos⟩ := hex
  have hne : heatmapCells samples sel ≠ [] := by
    intro h
    rw [h] at hc0
    exact absurd hc0 (List.not_mem_nil _)
  obtain ⟨hle, cm, hcm, hcmeq⟩ := maxMean_spec (heatmapCells samples sel) hne
  have hcnt0 : (0 : ℚ) < (c0.count : ℚ) := by
    exact_mod_cast Nat.lt_of_lt_of_le Nat.zero_lt_one (hcount c0 hc0)
  have hmean0 : 0 < cellMean c0 := div_pos hc0pos hcnt0
  have hM : 0 < maxMeanIntensity (heatmapCells samples sel) :=
    lt_of_lt_of_le hmean0 (hle c0 hc0)
  constructor
  · intro hc hmem
    simp only [heatmapData] at hmem
    obtain ⟨c, hc2, rfl⟩ := List.mem_map.mp hmem
    refine ⟨cellMean c / maxMeanIntensity (heatmapCells samples sel), ?_, ?_, ?_⟩
    · show divNaN (cellMean c) (maxMeanIntensity (heatmapCells samples sel)) = some _
      rw [divNaN, if_neg (ne_of_gt hM)]
    · exact div_nonneg (div_nonneg (hnonneg c hc2) (Nat.cast_nonneg _)) (le_of_lt hM)
    · rw [div_le_one hM]
      exact hle c hc2
  · have hmm2 : ({ x := cm.x, y := cm.y,
                   intensity := divNaN (cellMean cm)
                     (maxMeanIntensity (heatmapCells samples sel)),
                   count := cm.count } : HeatCell) ∈ heatmapData samples sel := by
      simp only [heatmapData]
      exact List.mem_map_of_mem _ hcm
    refine ⟨_, hmm2, ?_⟩
    show divNaN (cellMean cm) (maxMeanIntensity (heatmapCells samples sel)) = some 1
    rw [divNaN, if_neg (ne_of_gt hM), hcmeq, div_self (ne_of_gt hM)]

/-- Witness for the amended claim C3 at a concrete one-sample input. -/
theorem c3_witness :
    (∀ p ∈ [({ driver := "1", x := 100, y := 100, speed := 5 } : HeatSample)], 0 ≤ p.speed) ∧
    (∃ c ∈ heatmapCells [{ driver := "1", x := 100, y := 100, speed := 5 }] ["1"],
      0 < c.intensity) ∧
    ((∀ hc ∈ heatmapData [{ driver := "1", x := 100, y := 100, speed := 5 }] ["1"],
        ∃ q : ℚ, hc.intensity = some q ∧ 0 ≤ q ∧ q ≤ 1) ∧
      ∃ hc ∈ heatmapData [{ driver := "1", x := 100, y := 100, speed := 5 }] ["1"],
        hc.intensity = some 1) := by
  have h1 : ∀ p ∈ [({ driver := "1", x := 100, y := 100, speed := 5 } : HeatSample)],
      0 ≤ p.speed := by
    intro p hp
    simp only [List.mem_singleton] at hp
    rw [hp]
    norm_num
  have hcells : heatmapCells [{ driver := "1", x := 100, y := 100, speed := 5 }] ["1"] =
      [{ x := 0, y := 0, intensity := 5, count := 1 }] := by
    norm_num [heatmapCells, List.filter, updateCell, snap]
  have h2 : ∃ c ∈ heatmapCells [{ driver := "1", x := 100, y := 100, speed := 5 }] ["1"],
      0 < c.intensity := by
    rw [hcells]
    exact ⟨_, List.mem_singleton_self _, by norm_num⟩
  exact ⟨h1, h2, c3_amended _ ["1"] h1 h2⟩

/-! Derived metrics engine -/

theorem enhanceAux_length : ∀ (l : List RawSample) (p : RawSample) (s : ℝ) (k : ℕ),
    (enhanceAux p s k l).length = l.length := by
  intro l
  induction l with
  | nil =>
    intro p s k
    rfl
  | cons a rest ih =>
    intro p s k
    rw [enhanceAux]
    simp [ih]

theorem enhancedPositions_length (l : List RawSample) :
    (enhancedPositions l).length = l.length := by
  cases l with
  | nil => rfl
  | cons a rest =>
    rw [enhancedPositions]
    simp [enhanceAux_length]

theorem enhanceAux_get_succ : ∀ (j : ℕ) (l : List RawSample) (p : RawSample) (s : ℝ) (k : ℕ)
    (h : j + 1 < l.length),
    (enhanceAux p s k l).get ⟨j + 1, by rw [enhanceAux_length]; exact h⟩ =
      mkEnhanced (l.get ⟨j, by omega⟩)
        ((enhanceAux p s k l).get ⟨j, by rw [enhanceAux_length]; omega⟩).speed
        (k + (j + 1)) (l.get ⟨j + 1, h⟩) := by
  intro j
  induction j with
  | zero =>
    intro l p s k h
    match l, h with
    | a :: b :: rest, _ => rfl
  | succ j ih =>
    intro l p s k h
    match l, h with
    | a :: rest, h =>
      have h2 : j + 1 < rest.length := by
        simp only [List.length_cons] at h
        omega
      have hrec := ih rest a (mkEnhanced p s k a).speed (k + 1) h2
      rw [show k + 1 + (j + 1) = k + (j + 1 + 1) by omega] at hrec
      exact hrec

theorem enhancedPositions_get_succ : ∀ (j : ℕ) (l : List RawSample) (h : j + 1 < l.length),
    (enhancedPositions l).get ⟨j + 1, by rw [enhancedPositions_length]; exact h⟩ =
      mkEnhanced (l.get ⟨j, by omega⟩)
        ((enhancedPositions l).get ⟨j, by rw [enhancedPositions_length]; omega⟩).speed
        (j + 1) (l.get ⟨j + 1, h⟩) := by
  intro j l h
  match l, h with
  | a :: rest, h =>
    match j, h with
    | 0, h =>
      match rest, h with
      | b :: rest2, _ => rfl
    | j + 1, h =>
      have h2 : j + 1 < rest.length := by
        simp only [List.length_cons] at h
        omega
      have hrec := enhanceAux_get_succ j rest a 0 1 h2
      rw [show 1 + (j + 1) = j + 1 + 1 by omega] at hrec
      exact hrec

theorem enhancedPositions_getD_succ (l : List RawSample) (j : ℕ) (h : j + 1 < l.length) :
    (enhancedPositions l).getD (j + 1) zeroEnhanced =
      mkEnhanced (l.getD j zeroRaw) ((enhancedPositions l).getD j zeroEnhanced).speed
        (j + 1) (l.getD (j + 1) zeroRaw) := by
  have h1 : j < l.length := by omega
  have h2 : j + 1 < (enhancedPositions l).length := by rw [enhancedPositions_length]; exact h
  have h3 : j < (enhancedPositions l).length := by omega
  rw [List.getD_eq_getElem l zeroRaw h, List.getD_eq_getElem l zeroRaw h1,
    List.getD_eq_getElem _ zeroEnhanced h2, List.getD_eq_getElem _ zeroEnhanced h3]
  have hrec := enhancedPositions_get_succ j l h
  simpa [List.get_eq_getElem] using hrec

/-- Claim C6: the first enhanced sample of an entity has
distance = speed = acceleration = 0, and any later sample whose deltaT to
its predecessor is nonpositive (duplicate or out-of-order timestamp) also
gets all three set to 0; no error is raised (the function is total). -/
theorem c6_spec : ∀ l : List RawSample,
    (l ≠ [] →
      ((enhancedPositions l).getD 0 zeroEnhanced).distance = 0 ∧
      ((enhancedPositions l).getD 0 zeroEnhanced).speed = 0 ∧
      ((enhancedPositions l).getD 0 zeroEnhanced).acceleration = 0) ∧
    ∀ i : ℕ, 1 ≤ i → ∀ hi : i < l.length,
      ((l.getD i zeroRaw).tms - (l.getD (i - 1) zeroRaw).tms) / 1000 ≤ 0 →
      ((enhancedPositions l).getD i zeroEnhanced).distance = 0 ∧
      ((enhancedPositions l).getD i zeroEnhanced).speed = 0 ∧
      ((enhancedPositions l).getD i zeroEnhanced).acceleration = 0 := by
  intro l
  constructor
  · intro hne
    match l with
    | a :: rest => exact ⟨rfl, rfl, rfl⟩
  · intro i h1 hi hdt
    obtain ⟨j, rfl⟩ : ∃ j, i = j + 1 := ⟨i - 1, by omega⟩
    simp only [Nat.add_sub_cancel] at hdt
    rw [enhancedPositions_getD_succ l j hi]
    simp only [mkEnhanced]
    rw [if_neg (not_lt.mpr hdt)]
    exact ⟨rfl, rfl, rfl⟩

/-- Witness for C6: two samples of one entity with identical timestamps;
the second sample's metrics are all zero. -/
theorem c6_witness :
    (([{ x := 1, y := 1, tms := 0 }, { x := 2, y := 2, tms := 0 }] :
        List RawSample).getD 1 zeroRaw).tms -
      (([{ x := 1, y := 1, tms := 0 }, { x := 2, y := 2, tms := 0 }] :
        List RawSample).getD 0 zeroRaw).tms ≤ 0 ∧
    ((enhancedPositions [{ x := 1, y := 1, tms := 0 }, { x := 2, y := 2, tms := 0 }]).getD 1
        zeroEnhanced).distance = 0 ∧
    ((enhancedPositions [{ x := 1, y := 1, tms := 0 }, { x := 2, y := 2, tms := 0 }]).getD 1
        zeroEnhanced).speed = 0 ∧
    ((enhancedPositions [{ x := 1, y := 1, tms := 0 }, { x := 2, y := 2, tms := 0 }]).getD 1
        zeroEnhanced).acceleration = 0 ∧
    ((enhancedPositions [{ x := 1, y := 1, tms := 0 }, { x := 2, y := 2, tms := 0 }]).getD 0
        zeroEnhanced).distance = 0 := by
  have h := (c6_spec [{ x := 1, y := 1, tms := 0 }, { x := 2, y := 2, tms := 0 }]).2 1 le_rfl
    (by norm_num) (by norm_num [List.getD])
  have h0 := (c6_spec [{ x := 1, y := 1, tms := 0 }, { x := 2, y := 2, tms := 0 }]).1 (by simp)
  exact ⟨by norm_num [List.getD], h.1, h.2.1, h.2.2, h0.1⟩

/-- Claim C5: for every entity and index i with 1 <= i and positive deltaT,
distance is the euclidean distance to the previous sample, speed is
distance / deltaT, and acceleration is the speed difference over deltaT for
i > 1 and 0 at i = 1; and the spec's concrete scenario yields distances
[0, 5, 0], speeds [0, 5, 0] and accelerations [0, 0, -5]. -/
theorem c5_spec :
    (∀ (l : List RawSample) (i : ℕ), 1 ≤ i → ∀ hi : i < l.length,
      0 < ((l.getD i zeroRaw).tms - (l.getD (i - 1) zeroRaw).tms) / 1000 →
      ((enhancedPositions l).getD i zeroEnhanced).distance =
        Real.sqrt (((l.getD i zeroRaw).x - (l.getD (i - 1) zeroRaw).x) ^ 2 +
          ((l.getD i zeroRaw).y - (l.getD (i - 1) zeroRaw).y) ^ 2) ∧
      ((enhancedPositions l).getD i zeroEnhanced).speed =
        ((enhancedPositions l).getD i zeroEnhanced).distance /
          (((l.getD i zeroRaw).tms - (l.getD (i - 1) zeroRaw).tms) / 1000) ∧
      ((enhancedPositions l).getD i zeroEnhanced).acceleration =
        (if 1 < i then
          (((enhancedPositions l).getD i zeroEnhanced).speed -
            ((enhancedPositions l).getD (i - 1) zeroEnhanced).speed) /
            (((l.getD i zeroRaw).tms - (l.getD (i - 1) zeroRaw).tms) / 1000)
        else 0)) ∧
    (enhancedPositions scenarioSamples).map EnhancedSample.distance = [0, 5, 0] ∧
    (enhancedPositions scenarioSamples).map EnhancedSample.speed = [0, 5, 0] ∧
    (enhancedPositions scenarioSamples).map EnhancedSample.acceleration = [0, 0, -5] := by
  have hsq5 : Real.sqrt 25 = 5 := by
    rw [show (25 : ℝ) = 5 ^ 2 by norm_num]
    exact Real.sqrt_sq (by norm_num)
  constructor
  · intro l i h1 hi hdt
    obtain ⟨j, rfl⟩ : ∃ j, i = j + 1 := ⟨i - 1, by omega⟩
    simp only [Nat.add_sub_cancel] at hdt ⊢
    rw [enhancedPositions_getD_succ l j hi]
    simp only [mkEnhanced]
    rw [if_pos hdt]
    refine ⟨rfl, rfl, rfl⟩
  · refine ⟨?_, ?_, ?_⟩ <;>
      norm_num [scenarioSamples, enhancedPositions, enhanceAux, mkEnhanced, hsq5]

/-- Witness for C5 at the scenario input, index 2. -/
theorem c5_witness :
    1 ≤ 2 ∧ 2 < scenarioSamples.length ∧
    0 < ((scenarioSamples.getD 2 zeroRaw).tms - (scenarioSamples.getD 1 zeroRaw).tms) / 1000 ∧
    (((enhancedPositions scenarioSamples).getD 2 zeroEnhanced).distance =
      Real.sqrt (((scenarioSamples.getD 2 zeroRaw).x - (scenarioSamples.getD 1 zeroRaw).x) ^ 2 +
        ((scenarioSamples.getD 2 zeroRaw).y - (scenarioSamples.getD 1 zeroRaw).y) ^ 2) ∧
     ((enhancedPositions scenarioSamples).getD 2 zeroEnhanced).speed =
      ((enhancedPositions scenarioSamples).getD 2 zeroEnhanced).distance /
        (((scenarioSamples.getD 2 zeroRaw).tms - (scenarioSamples.getD 1 zeroRaw).tms) / 1000) ∧
     ((enhancedPositions scenarioSamples).getD 2 zeroEnhanced).acceleration =
      (if 1 < 2 then
        (((enhancedPositions scenarioSamples).getD 2 zeroEnhanced).speed -
          ((enhancedPositions scenarioSamples).getD 1 zeroEnhanced).speed) /
          (((scenarioSamples.getD 2 zeroRaw).tms - (scenarioSamples.getD 1 zeroRaw).tms) / 1000)
      else 0)) := by
  have hdt : 0 < ((scenarioSamples.getD 2 zeroRaw).tms -
      (scenarioSamples.getD 1 zeroRaw).tms) / 1000 := by
    norm_num [scenarioSamples, List.getD]
  have h := c5_spec.1 scenarioSamples 2 (by norm_num) (by norm_num [scenarioSamples]) hdt
  exact ⟨by norm_num, by norm_num [scenarioSamples], hdt, by simpa using h⟩

/-! Current-positions readout -/

theorem objSet_keys_mem : ∀ (m : List (String × Pos)) (k : String) (v : Pos) (x : String),
    x ∈ (objSet m k v).map Prod.fst ↔ x ∈ m.map Prod.fst ∨ x = k := by
  intro m k v
  induction m with
  | nil =>
    intro x
    simp [objSet]
  | cons kv rest ih =>
    intro x
    obtain ⟨k0, v0⟩ := kv
    rw [objSet]
    by_cases hk : k0 = k
    · subst hk
      rw [if_pos rfl]
      simp only [List.map_cons, List.mem_cons]
      constructor
      · rintro (rfl | hx)
        · exact Or.inr rfl
        · exact Or.inl (Or.inr hx)
      · rintro ((rfl | hx) | rfl)
        · exact Or.inl rfl
        · exact Or.inr hx
        · exact Or.inl rfl
    · rw [if_neg hk]
      simp only [List.map_cons, List.mem_cons, ih x]
      tauto

theorem objSet_keys_nodup : ∀ (m : List (String × Pos)) (k : String) (v : Pos),
    (m.map Prod.fst).Nodup → ((objSet m k v).map Prod.fst).Nodup := by
  intro m k v
  induction m with
  | nil =>
    intro _
    simp [objSet]
  | cons kv rest ih =>
    intro h
    obtain ⟨k0, v0⟩ := kv
    rw [objSet]
    simp only [List.map_cons, List.nodup_cons] at h
    by_cases hk : k0 = k
    · subst hk
      rw [if_pos rfl]
      simp only [List.map_cons, List.nodup_cons]
      exact h
    · rw [if_neg hk]
      simp only [List.map_cons, List.nodup_cons]
      refine ⟨?_, ih h.2⟩
      intro hmem
      rcases (objSet_keys_mem rest k v k0).mp hmem with hx | hx
      · exact h.1 hx
      · exact hk hx

theorem objSet_kv : ∀ (m : List (String × Pos)) (k : String) (v : Pos),
    (∀ kv ∈ m, (kv.2).driver = kv.1) → v.driver = k →
    ∀ kv ∈ objSet m k v, kv.2.driver = kv.1 := by
  intro m k v
  induction m with
  | nil =>
    intro _ hv kv hkv
    simp only [objSet, List.mem_singleton] at hkv
    subst hkv
    exact hv
  | cons kv0 rest ih =>
    intro h hv kv hkv
    obtain ⟨k0, v0⟩ := kv0
    rw [objSet] at hkv
    by_cases hk : k0 = k
    · rw [if_pos hk] at hkv
      rcases List.mem_cons.mp hkv with rfl | hmem
      · rw [hv, hk]
      · exact h kv (List.mem_cons_of_mem _ hmem)
    · rw [if_neg hk] at hkv
      rcases List.mem_cons.mp hkv with rfl | hmem
      · exact h _ (List.mem_cons_self _ _)
      · exact ih (fun kv2 h2 => h kv2 (List.mem_cons_of_mem _ h2)) hv kv hmem

theorem objSet_filter_ne : ∀ (m : List (String × Pos)) (k : String) (v : Pos) (d : String),
    d ≠ k →
    (objSet m k v).filter (fun kv => decide (kv.1 = d)) =
      m.filter (fun kv => decide (kv.1 = d)) := by
  intro m k v d hd
  have hne : ¬ (k = d) := fun h => hd h.symm
  induction m with
  | nil =>
    simp [objSet, List.filter_cons, hne]
  | cons kv0 rest ih =>
    obtain ⟨k0, v0⟩ := kv0
    rw [objSet]
    by_cases hk : k0 = k
    · subst hk
      rw [if_pos rfl]
      have hne : ¬ (k0 = d) := fun h => hd (h ▸ rfl)
      simp [List.filter_cons, hne]
    · rw [if_neg hk]
      simp only [List.filter_cons]
      rw [ih]

theorem filter_key_not_mem : ∀ (m : List (String × Pos)) (k : String),
    k ∉ m.map Prod.fst → m.filter (fun kv => decide (kv.1 = k)) = [] := by
  intro m k
  induction m with
  | nil =>
    intro _
    rfl
  | cons kv0 rest ih =>
    intro h
    simp only [List.map_cons, List.mem_cons] at h
    push_neg at h
    rw [List.filter_cons, if_neg (by simp only [decide_eq_true_eq]; exact fun hh => h.1 hh.symm)]
    exact ih h.2

theorem objSet_filter_eq : ∀ (m : List (String × Pos)) (k : String) (v : Pos),
    (m.map Prod.fst).Nodup →
    (objSet m k v).filter (fun kv => decide (kv.1 = k)) = [(k, v)] := by
  intro m k v
  induction m with
  | nil =>
    intro _
    simp [objSet, List.filter_cons]
  | cons kv0 rest ih =>
    intro h
    obtain ⟨k0, v0⟩ := kv0
    simp only [List.map_cons, List.nodup_cons] at h
    rw [objSet]
    by_cases hk : k0 = k
    · subst hk
      rw [if_pos rfl]
      rw [List.filter_cons, if_pos (by simp)]
      rw [filter_key_not_mem rest k0 h.1]
    · rw [if_neg hk]
      rw [List.filter_cons, if_neg (by simp [hk])]
      exact ih h.2

theorem foldl_objSet_keys_nodup : ∀ (ss : List Pos) (m : List (String × Pos)),
    (m.map Prod.fst).Nodup →
    (((ss.foldl (fun acc p => objSet acc p.driver p) m)).map Prod.fst).Nodup := by
  intro ss
  induction ss with
  | nil =>
    intro m h
    exact h
  | cons p rest ih =>
    intro m h
    rw [List.foldl_cons]
    exact ih _ (objSet_keys_nodup m p.driver p h)

theorem foldl_objSet_kv : ∀ (ss : List Pos) (m : List (String × Pos)),
    (∀ kv ∈ m, kv.2.driver = kv.1) →
    ∀ kv ∈ ss.foldl (fun acc p => objSet acc p.driver p) m, kv.2.driver = kv.1 := by
  intro ss
  induction ss with
  | nil =>
    intro m h
    exact h
  | cons p rest ih =>
    intro m h
    rw [List.foldl_cons]
    exact ih _ (objSet_kv m p.driver p h rfl)

theorem foldl_objSet_filter : ∀ (ss : List Pos) (m : List (String × Pos)) (d : String),
    (m.map Prod.fst).Nodup →
    (ss.foldl (fun acc p => objSet acc p.driver p) m).filter (fun kv => decide (kv.1 = d)) =
      ((ss.filter fun p => decide (p.driver = d)).getLast?).elim
        (m.filter fun kv => decide (kv.1 = d)) (fun p => [(d, p)]) := by
  intro ss
  induction ss with
  | nil =>
    intro m d _
    rfl
  | cons p rest ih =>
    intro m d hnod
    rw [List.foldl_cons, ih (objSet m p.driver p) d (objSet_keys_nodup m p.driver p hnod)]
    by_cases hd : p.driver = d
    · rw [List.filter_cons, if_pos (by simp [hd]), List.getLast?_cons]
      cases hrf : (List.filter (fun p => decide (p.driver = d)) rest).getLast? with
      | some q => simp [hrf]
      | none =>
        simp only [hrf, Option.getD_none, Option.elim]
        rw [← hd]
        exact objSet_filter_eq m p.driver p hnod
    · rw [List.filter_cons, if_neg (by simp [hd])]
      rw [objSet_filter_ne m p.driver p d (fun h => hd h.symm)]

theorem foldl_frames_flat : ∀ (fl : List (ℤ × List Pos)) (m : List (String × Pos)),
    fl.foldl (fun m f => upsertFrame m f.2) m =
      (fl.flatMap Prod.snd).foldl (fun acc p => objSet acc p.driver p) m := by
  intro fl
  induction fl with
  | nil =>
    intro m
    rfl
  | cons f fl ih =>
    intro m
    rw [List.foldl_cons, List.flatMap_cons, List.foldl_append, ih]
    rfl

theorem values_filter : ∀ (m : List (String × Pos)) (d : String),
    (∀ kv ∈ m, kv.2.driver = kv.1) →
    (m.map Prod.snd).filter (fun p => decide (p.driver = d)) =
      (m.filter fun kv => decide (kv.1 = d)).map Prod.snd := by
  intro m d hkv
  rw [List.filter_map]
  congr 1
  apply List.filter_congr
  intro kv hkv2
  simp [Function.comp, hkv kv hkv2]

theorem mem_of_getLast?_eq : ∀ (l : List Pos) (p : Pos), l.getLast? = some p → p ∈ l := by
  intro l p h
  obtain ⟨hne, heq⟩ := List.mem_getLast?_eq_getLast (Option.mem_def.mpr h)
  rw [heq]
  exact List.getLast_mem hne

theorem getLast_filter_flatMap : ∀ (fl : List (ℤ × List Pos)) (pd : Pos → Bool) (p : Pos),
    ((fl.flatMap Prod.snd).filter pd).getLast? = some p →
    ∃ j : ℕ, ∃ hj : j < fl.length, p ∈ (fl.get ⟨j, hj⟩).2 ∧
      ∀ (j' : ℕ) (hj' : j' < fl.length), j < j' →
        ∀ q ∈ (fl.get ⟨j', hj'⟩).2, pd q = false := by
  intro fl
  induction fl using List.reverseRecOn with
  | nil =>
    intro pd p h
    simp at h
  | append_singleton fl f ih =>
    intro pd p h
    rw [List.flatMap_append, List.filter_append, List.getLast?_append] at h
    have hflat : List.flatMap [f] Prod.snd = f.2 := by simp
    rw [hflat] at h
    cases hf : (List.filter pd f.2).getLast? with
    | some r =>
      rw [hf, Option.or_some] at h
      have hrp : r = p := Option.some_injective _ h
      have hple : p ∈ f.2 := hrp ▸ (List.mem_filter.mp (mem_of_getLast?_eq _ _ hf)).1
      refine ⟨fl.length, by simp, ?_, ?_⟩
      · simp only [List.get_eq_getElem]
        rw [List.getElem_concat_length fl f fl.length rfl]
        exact hple
      · intro j' hj' hgt q _
        have hb : j' < fl.length + 1 := by simpa using hj'
        exact absurd hgt (by omega)
    | none =>
      rw [hf, Option.none_or] at h
      obtain ⟨j, hj, hp, hlater⟩ := ih pd p h
      have hjlt : j < (fl ++ [f]).length := by
        simp only [List.length_append, List.length_singleton]
        omega
      refine ⟨j, hjlt, ?_, ?_⟩
      · have hget : (fl ++ [f]).get ⟨j, hjlt⟩ = fl.get ⟨j, hj⟩ := by
          rw [List.get_eq_getElem, List.get_eq_getElem]
          exact List.getElem_append_left hj
        rw [hget]
        exact hp
      · intro j' hj' hgt q hq
        by_cases hcase : j' < fl.length
        · have hget : (fl ++ [f]).get ⟨j', hj'⟩ = fl.get ⟨j', hcase⟩ := by
            rw [List.get_eq_getElem, List.get_eq_getElem]
            exact List.getElem_append_left hcase
          rw [hget] at hq
          exact hlater j' hcase hgt q hq
        · have hj'eq : j' = fl.length := by
            have hb : j' < fl.length + 1 := by simpa using hj'
            omega
          subst hj'eq
          have hget : (fl ++ [f]).get ⟨fl.length, hj'⟩ = f := by
            rw [List.get_eq_getElem]
            exact List.getElem_concat_length fl f fl.length rfl _
          rw [hget] at hq
          have hn := List.filter_eq_nil_iff.mp (List.getLast?_eq_none_iff.mp hf) q hq
          simpa using hn

/-- Claim C10: the current-positions readout holds at most one position per
driver; for every driver it holds exactly the last sample of that driver
among the frames 0 .. min(currentIndex, frameCount-1) (and nothing when the
driver does not appear there); and any held position comes from the
greatest frame index up to the current one in which the driver appears -
no later frame up to the current index contains that driver. -/
theorem c10_spec : ∀ (frames : List (ℤ × List Pos)) (i : ℕ),
    (currentPositions frames i).Pairwise (fun p q => p.driver ≠ q.driver) ∧
    (∀ d : String,
      (currentPositions frames i).filter (fun p => decide (p.driver = d)) =
        (((samplesUpTo frames i).filter fun p => decide (p.driver = d)).getLast?).toList) ∧
    (∀ (d : String) (p : Pos), p ∈ currentPositions frames i → p.driver = d →
      ∃ j : ℕ, ∃ hj : j < frames.length, j ≤ min i (frames.length - 1) ∧
        p ∈ (frames.get ⟨j, hj⟩).2 ∧
        ∀ (j' : ℕ) (hj' : j' < frames.length), j < j' → j' ≤ min i (frames.length - 1) →
          ∀ q ∈ (frames.get ⟨j', hj'⟩).2, q.driver ≠ d) := by
  intro frames i
  by_cases hfe : frames = []
  · subst hfe
    refine ⟨by simp [currentPositions], ?_, ?_⟩
    · intro d
      simp [currentPositions, samplesUpTo]
    · intro d p hp _
      simp [currentPositions] at hp
  · have hcp : currentPositions frames i =
        ((samplesUpTo frames i).foldl (fun acc p => objSet acc p.driver p)
          ([] : List (String × Pos))).map Prod.snd := by
      rw [currentPositions, if_neg hfe, foldl_frames_flat, samplesUpTo]
    have hnodup : (((samplesUpTo frames i).foldl (fun acc p => objSet acc p.driver p)
        ([] : List (String × Pos))).map Prod.fst).Nodup :=
      foldl_objSet_keys_nodup _ [] (by simp)
    have hkv : ∀ kv ∈ (samplesUpTo frames i).foldl (fun acc p => objSet acc p.driver p)
        ([] : List (String × Pos)), kv.2.driver = kv.1 :=
      foldl_objSet_kv _ [] (by simp)
    have hB : ∀ d : String,
        (currentPositions frames i).filter (fun p => decide (p.driver = d)) =
          (((samplesUpTo frames i).filter fun p => decide (p.driver = d)).getLast?).toList := by
      intro d
      rw [hcp, values_filter _ d hkv, foldl_objSet_filter _ [] d (by simp)]
      cases hlast : ((samplesUpTo frames i).filter fun p => decide (p.driver = d)).getLast? with
      | none => rfl
      | some q => rfl
    refine ⟨?_, hB, ?_⟩
    · rw [hcp]
      refine List.pairwise_map.mpr ?_
      refine (List.pairwise_map.mp hnodup).imp_of_mem ?_
      intro kv kv2 ha hb hne
      rw [hkv _ ha, hkv _ hb]
      exact hne
    · intro d p hp hpd
      have hpf : p ∈ (currentPositions frames i).filter (fun p => decide (p.driver = d)) :=
        List.mem_filter.mpr ⟨hp, by simp [hpd]⟩
      rw [hB d] at hpf
      have hlast : ((samplesUpTo frames i).filter fun p => decide (p.driver = d)).getLast? =
          some p := by
        cases hl : ((samplesUpTo frames i).filter fun p => decide (p.driver = d)).getLast? with
        | none =>
          rw [hl] at hpf
          simp at hpf
        | some q =>
          rw [hl] at hpf
          simp only [Option.toList_some, List.mem_singleton] at hpf
          rw [hpf]
      have hlen1 : 1 ≤ frames.length := by
        cases frames with
        | nil => exact absurd rfl hfe
        | cons a b => simp
      have htklen : (frames.take (min i (frames.length - 1) + 1)).length =
          min i (frames.length - 1) + 1 := by
        rw [List.length_take]
        omega
      obtain ⟨j, hj, hpj, hlater⟩ :=
        getLast_filter_flatMap (frames.take (min i (frames.length - 1) + 1)) _ p hlast
      have hjlt : j < frames.length := by
        rw [htklen] at hj
        omega
      have hjle : j ≤ min i (frames.length - 1) := by
        rw [htklen] at hj
        omega
      have hgetj : (frames.take (min i (frames.length - 1) + 1)).get ⟨j, hj⟩ =
          frames.get ⟨j, hjlt⟩ := by
        rw [List.get_eq_getElem, List.get_eq_getElem]
        exact List.getElem_take frames
      refine ⟨j, hjlt, hjle, by rw [← hgetj]; exact hpj, ?_⟩
      intro j' hj' hgt hle q hq
      have hj'tk : j' < (frames.take (min i (frames.length - 1) + 1)).length := by
        rw [htklen]
        omega
      have hgetj' : (frames.take (min i (frames.length - 1) + 1)).get ⟨j', hj'tk⟩ =
          frames.get ⟨j', hj'⟩ := by
        rw [List.get_eq_getElem, List.get_eq_getElem]
        exact List.getElem_take frames
      have hq2 : q ∈ ((frames.take (min i (frames.length - 1) + 1)).get ⟨j', hj'tk⟩).2 := by
        rw [hgetj']
        exact hq
      have := hlater j' hj'tk hgt q hq2
      simpa using this

/-- Witness for the amended claim C1: a concrete point of a concrete
session cloud that lies on the output path also lies in the deduplicated
candidate set. -/
theorem c1_witness :
    ((50 : ℚ), (50 : ℚ)) ∈ dedupTrackPoints [((50 : ℚ), (50 : ℚ))] := by
  have hop : orderedPoints [((50 : ℚ), (50 : ℚ))] = [((50 : ℚ), (50 : ℚ))] := by
    have h1 : discretize ((50 : ℚ), (50 : ℚ)) = (50, 50) := by
      norm_num [discretize]
    have hd : dedupTrackPoints [((50 : ℚ), (50 : ℚ))] = [((50 : ℚ), (50 : ℚ))] := by
      norm_num [dedupTrackPoints, h1]
    rw [orderedPoints, hd]
    rfl
  exact (c1_amended [((50 : ℚ), (50 : ℚ))]).2.1 ((50 : ℚ), (50 : ℚ))
    (by rw [hop]; exact List.mem_singleton_self _)

/-- Witness for claim C10 at two one-sample frames of one driver, replay
index 5 (clamped to the last frame): the held position comes from frame 1,
the greatest frame containing the driver. -/
theorem c10_witness :
    ∃ j : ℕ,
      ∃ hj : j < ([((0 : ℤ), [{ driver := "1", x := 1, y := 1, t := 0 }]),
          ((1000 : ℤ), [{ driver := "1", x := 3, y := 4, t := 1000 }])] :
            List (ℤ × List Pos)).length,
      j ≤ min 5 (([((0 : ℤ), [{ driver := "1", x := 1, y := 1, t := 0 }]),
          ((1000 : ℤ), [{ driver := "1", x := 3, y := 4, t := 1000 }])] :
            List (ℤ × List Pos)).length - 1) ∧
      ({ driver := "1", x := 3, y := 4, t := 1000 } : Pos) ∈
        (([((0 : ℤ), [{ driver := "1", x := 1, y := 1, t := 0 }]),
          ((1000 : ℤ), [{ driver := "1", x := 3, y := 4, t := 1000 }])] :
            List (ℤ × List Pos)).get ⟨j, hj⟩).2 ∧
      ∀ (j' : ℕ)
        (hj' : j' < ([((0 : ℤ), [{ driver := "1", x := 1, y := 1, t := 0 }]),
          ((1000 : ℤ), [{ driver := "1", x := 3, y := 4, t := 1000 }])] :
            List (ℤ × List Pos)).length),
        j < j' →
        j' ≤ min 5 (([((0 : ℤ), [{ driver := "1", x := 1, y := 1, t := 0 }]),
          ((1000 : ℤ), [{ driver := "1", x := 3, y := 4, t := 1000 }])] :
            List (ℤ × List Pos)).length - 1) →
        ∀ q ∈ (([((0 : ℤ), [{ driver := "1", x := 1, y := 1, t := 0 }]),
          ((1000 : ℤ), [{ driver := "1", x := 3, y := 4, t := 1000 }])] :
            List (ℤ × List Pos)).get ⟨j', hj'⟩).2, q.driver ≠ "1" :=
  (c10_spec
      [((0 : ℤ), [{ driver := "1", x := 1, y := 1, t := 0 }]),
       ((1000 : ℤ), [{ driver := "1", x := 3, y := 4, t := 1000 }])] 5).2.2
    "1" { driver := "1", x := 3, y := 4, t := 1000 } (by decide) rfl

end F1
